import Mathlib

/-!
Verification of the AFC transport core (`crates/aranya-client/src/afc.rs`).

The Rust code is shallowly embedded: machine integers become `Nat` with
explicit `% 2^w` / bounds where overflow matters, fallible operations
return `Except`, and external collaborators (the cryptographic
sealer/opener, `postcard` deserialization, TCP sockets) are modelled as
oracle parameters.  Tables (`BTreeMap`, `IndexMap`) become a function
`Nat → Option Chan` resp. an insertion-ordered association list.
-/

namespace Afc

/-- Version tag carried in every message; `Version::V1` is modelled as `1`. -/
def VersionV1 : Nat := 1

/-- Models `aranya_fast_channels::ChannelId`: an opaque pair of node id and
label, as consumed by `chan_id.node_id()` and `chan_id.label()`. -/
structure ChannelId where
  node_id : Nat
  label : Nat
deriving DecidableEq, Repr

/-- A channel-table entry, from `struct Chan` in `afc.rs`.  `next_min_seq`
is `Option Nat`: `none` models the EXHAUSTED (`None`) state. -/
structure Chan where
  net_id : Nat
  chan_id : ChannelId
  addr : Nat
  next_min_seq : Option Nat
deriving DecidableEq, Repr

/-- The channel table `chans: BTreeMap<AfcId, Chan>`, modelled as its
lookup function (BTreeMap keys are unique, so the map is its lookup). -/
abbrev Chans := Nat → Option Chan

/-- An AFC data message, from `struct Data` in `afc.rs`. -/
structure Data where
  version : Nat
  afc_id : Nat
  ciphertext : List Nat
deriving DecidableEq, Repr

/-- The payload of a parsed `aranya_fast_channels::Message`. -/
inductive Payload where
  | data (ct : List Nat)
  | control
deriving DecidableEq, Repr

/-- AFC wire messages, from `enum Msg` in `afc.rs`. -/
inductive Msg where
  | Ctrl (version team_id : Nat) (cmd : List Nat)
  | Data (d : Data)
deriving DecidableEq, Repr

/-- The error cases of `enum AfcError` that the embedded operations can
produce (I/O error payloads are dropped). -/
inductive AfcError where
  | VersionMismatch (expected actual : Nat)
  | ChannelNotFound (id : Nat)
  | EndOfChannel
  | InvalidMsg
  | Bug
  | PayloadTooSmall
  | Decryption
  | MsgReplayed (s : Nat)
  | InvalidMagic (m : Nat)
  | MsgTooLarge (got max : Nat)
  | Serde
  | StreamRead
  | StreamConnect
  | StreamPeerAddr
deriving DecidableEq, Repr

/-- External collaborators used by `open_data`: `Message::try_parse`, the
seal overhead constant `Client::<S>::OVERHEAD`, and the opener
`self.afc.open(node_id, &mut plaintext, ciphertext) -> (Label, Seq)`
(the plaintext written by the opener is returned as the third component). -/
structure Oracle where
  parse : List Nat → Except Unit Payload
  overhead : Nat
  openMsg : Nat → List Nat → Except Unit (Nat × Nat × List Nat)

/-- Models `seq.to_u64().checked_add(1).map(Seq::new)`: the checked
increment of a 64-bit sequence number, `none` on overflow. -/
def seqCheckedAdd1 (s : Nat) : Option Nat :=
  if s + 1 < 2 ^ 64 then some (s + 1) else none

/-- Pointwise update of the channel table at one key. -/
def updateChan (chans : Chans) (id : Nat) (c : Chan) : Chans :=
  fun i => if i = id then some c else chans i

/-- Embedding of `Afc::open_data`.  Returns the call result together with
the channel table after the call.  The branch structure follows the
source line by line: version check, channel lookup, exhaustion check,
payload parse, control-payload bug, checked subtraction of the seal
overhead, decrypt, label-mismatch bug, replay check, and finally the
checked advance of `next_min_seq`. -/
def open_data (o : Oracle) (chans : Chans) (d : Data) :
    Except AfcError (List Nat × Nat × Nat × Nat) × Chans :=
  if d.version ≠ VersionV1 then
    (.error (.VersionMismatch VersionV1 d.version), chans)
  else
    match chans d.afc_id with
    | none => (.error (.ChannelNotFound d.afc_id), chans)
    | some chan =>
      match chan.next_min_seq with
      | none => (.error .EndOfChannel, chans)
      | some next_min_seq =>
        match o.parse d.ciphertext with
        | .error _ => (.error .InvalidMsg, chans)
        | .ok .control => (.error .Bug, chans)
        | .ok (.data ct) =>
          if ct.length < o.overhead then (.error .PayloadTooSmall, chans)
          else
            match o.openMsg chan.chan_id.node_id ct with
            | .error _ => (.error .Decryption, chans)
            | .ok (label, seq, pt) =>
              if chan.chan_id.label ≠ label then (.error .Bug, chans)
              else if seq < next_min_seq then (.error (.MsgReplayed seq), chans)
              else (.ok (pt, d.afc_id, label, seq),
                    updateChan chans d.afc_id
                      { chan with next_min_seq := seqCheckedAdd1 seq })

/-- Embedding of `Afc::add_channel`: a duplicate `afc_id` is a warning,
not an error, and does not overwrite; a fresh id is inserted with
`next_min_seq = Some(Seq::ZERO)`. -/
def add_channel (chans : Chans) (id net_id team_id : Nat) (chan_id : ChannelId)
    (addr : Nat) : Except AfcError Unit × Chans :=
  match chans id with
  | some _ => (.ok (), chans)
  | none =>
    (.ok (), updateChan chans id
      { net_id := net_id, chan_id := chan_id, addr := addr,
        next_min_seq := some 0 })

/-- Embedding of `Afc::get_next_node_id`: returns
`NodeId::new(self.next_node_id)` and then increments the `u32` counter
(wrapping modulo `2^32`, the release-build overflow semantics the spec
itself allows).  State is the counter; result is the first component. -/
def get_next_node_id (next_node_id : Nat) : Nat × Nat :=
  (next_node_id, (next_node_id + 1) % 2 ^ 32)

/-- The counter state after `n` calls to `get_next_node_id`, starting from
the initial state `next_node_id = 0` set in `Afc::new`. -/
def nodeIdStateAfter : Nat → Nat
  | 0 => 0
  | n + 1 => (get_next_node_id (nodeIdStateAfter n)).2

/-- Wire constant `WIRE_HEADER_SIZE = 4 + 4`. -/
def WIRE_HEADER_SIZE : Nat := 4 + 4

/-- Wire constant `WIRE_MAGIC = b"AFC\0"` as its four byte values. -/
def WIRE_MAGIC : List Nat := [0x41, 0x46, 0x43, 0x00]

/-- Wire constant `MAX_MSG_SIZE = 10 * 1024 * 1024`. -/
def MAX_MSG_SIZE : Nat := 10 * 1024 * 1024

/-- Little-endian interpretation of four bytes as a `u32`, modelling
`u32::from_le_bytes`. -/
def u32le (bs : List Nat) : Nat :=
  match bs with
  | [b0, b1, b2, b3] => b0 + b1 * 2 ^ 8 + b2 * 2 ^ 16 + b3 * 2 ^ 24
  | _ => 0

/-- Embedding of the read path of `Afc::read_msg` on one stream.  The
stream is the list of bytes the peer sent; `des` models
`postcard::from_bytes`.  The result is paired with the number of bytes
consumed from the stream, so that claims about reading nothing past the
8-byte header are statable.  A stream shorter than a completed
`read_exact` wants models as a read error. -/
def read_msg (des : List Nat → Except Unit Msg) (stream : List Nat) :
    Except AfcError Msg × Nat :=
  if stream.length < WIRE_HEADER_SIZE then (.error .StreamRead, stream.length)
  else
    let magic := stream.take 4
    if magic ≠ WIRE_MAGIC then
      (.error (.InvalidMagic (u32le magic)), WIRE_HEADER_SIZE)
    else
      let len := u32le ((stream.drop 4).take 4)
      if len > MAX_MSG_SIZE then
        (.error (.MsgTooLarge len MAX_MSG_SIZE), WIRE_HEADER_SIZE)
      else if stream.length < WIRE_HEADER_SIZE + len then
        (.error .StreamRead, stream.length)
      else
        match des ((stream.drop WIRE_HEADER_SIZE).take len) with
        | .ok m => (.ok m, WIRE_HEADER_SIZE + len)
        | .error _ => (.error .Serde, WIRE_HEADER_SIZE + len)

/-- A TCP stream.  `sid` is the stream's identity (distinguishing
distinct sockets); `peer` models `stream.peer_addr()`, with `none` for
an I/O failure of that call. -/
structure TcpStream where
  sid : Nat
  peer : Option Nat
deriving DecidableEq, Repr

/-- The stream table `streams: IndexMap<SocketAddr, TcpStream>`, modelled
as its insertion-ordered list of key-value pairs. -/
abbrev Tbl := List (Nat × TcpStream)

/-- Key lookup in the stream table. -/
def lookupS (tbl : Tbl) (a : Nat) : Option TcpStream :=
  (tbl.find? (fun e => e.1 = a)).map (·.2)

/-- Embedding of `TcpStreams::contains`. -/
def containsS (tbl : Tbl) (a : Nat) : Bool :=
  (lookupS tbl a).isSome

/-- Embedding of `TcpStreams::insert`: refuses to clobber.  If a stream
already exists at the new stream's peer address, the existing stream is
returned together with `some` of the offered duplicate and the table is
unchanged; otherwise the stream is appended under its peer address
(IndexMap inserts new keys at the end). -/
def insertS (tbl : Tbl) (s : TcpStream) :
    Except AfcError (TcpStream × Option TcpStream) × Tbl :=
  match s.peer with
  | none => (.error .StreamPeerAddr, tbl)
  | some addr =>
    match lookupS tbl addr with
    | some old => (.ok (old, some s), tbl)
    | none => (.ok (s, none), tbl ++ [(addr, s)])

/-- Embedding of `TcpStreams::get_or_open`.  `conn` models the outcome of
`TcpStream::connect(host)`.  A present entry is returned as is; a vacant
entry is filled (at the queried address `addr`, exactly as the source's
`entry(addr)` does) with the freshly connected stream. -/
def get_or_open (conn : Except Unit TcpStream) (tbl : Tbl) (addr : Nat) :
    Except AfcError TcpStream × Tbl :=
  match lookupS tbl addr with
  | some s => (.ok s, tbl)
  | none =>
    match conn with
    | .error _ => (.error .StreamConnect, tbl)
    | .ok s => (.ok s, tbl ++ [(addr, s)])

/-- Embedding of `TcpStreams::connect`.  `conn` models
`TcpStream::connect(peer)`; `sd` models `stream.shutdown()` on the
duplicate.  The third component lists the streams shutdown was attempted
on; a shutdown error is logged and otherwise ignored, which is why both
branches of the match on `sd dupe` return the same value. -/
def connect (sd : TcpStream → Except Unit Unit) (conn : Except Unit TcpStream)
    (tbl : Tbl) : Except AfcError TcpStream × Tbl × List TcpStream :=
  match conn with
  | .error _ => (.error .StreamConnect, tbl, [])
  | .ok stream =>
    match insertS tbl stream with
    | (.error e, tbl2) => (.error e, tbl2, [])
    | (.ok (old, none), tbl2) => (.ok old, tbl2, [])
    | (.ok (old, some dupe), tbl2) =>
      match sd dupe with
      | .ok _ => (.ok old, tbl2, [dupe])
      | .error _ => (.ok old, tbl2, [dupe])

/-- Embedding of `TcpStreams::try_get_or_open`: `Some(addr)` delegates to
`get_or_open`, `None` to `connect`. -/
def try_get_or_open (sd : TcpStream → Except Unit Unit)
    (conn : Except Unit TcpStream) (tbl : Tbl) (maybe_addr : Option Nat) :
    Except AfcError TcpStream × Tbl × List TcpStream :=
  match maybe_addr with
  | some addr =>
    match get_or_open conn tbl addr with
    | (r, tbl2) => (r, tbl2, [])
  | none => connect sd conn tbl

/-- The outcome of `stream_is_ready` for one stream: `Ok(true)`,
`Ok(false)`, or `Err(_)`. -/
inductive Probe where
  | ready
  | pending
  | ioErr
deriving DecidableEq, Repr

/-- Embedding of `IndexMap::swap_remove_index`: the last entry is swapped
into slot `i` and the (then shorter) list is truncated. -/
def swapRemove (l : Tbl) (i : Nat) : Tbl :=
  match l.getLast? with
  | none => l
  | some last => (l.set i last).dropLast

/-- The loop body of `TcpStreams::next_ready`.  `fuel` is the iteration
count `0..self.streams.len()`, fixed at loop entry; `probe` models
`stream_is_ready`.  The outer `Option` is `none` when the source would
panic (out-of-range `self.streams[idx]`) or report a `Bug`
(`get_index(..).assume(..)`); the theorems prove this never happpens.
The inner result is the `Poll` outcome (`some addr` for `Ready`, `none`
for `Pending`), the table after the call, and the trace of probed
entries in order. -/
def next_ready_loop (probe : TcpStream → Probe) (start : Nat) :
    Nat → Nat → Tbl → Option (Option Nat × Tbl × List (Nat × TcpStream))
  | 0, _, tbl => some (none, tbl, [])
  | fuel + 1, idx, tbl =>
    match tbl[idx]? with
    | none => none
    | some e =>
      match probe e.2 with
      | .ready => some (some e.1, tbl, [e])
      | .pending =>
        (next_ready_loop probe start fuel ((idx + 1) % tbl.length) tbl).map
          (fun out => (out.1, out.2.1, e :: out.2.2))
      | .ioErr =>
        let tbl2 := swapRemove tbl idx
        let idx2 :=
          if idx = tbl2.length then 0
          else if idx < start ∧ start ≤ tbl2.length then
            (idx + 1) % tbl2.length
          else idx
        (next_ready_loop probe start fuel idx2 tbl2).map
          (fun out => (out.1, out.2.1, e :: out.2.2))

/-- Embedding of `TcpStreams::next_ready`.  The pseudo-random start index
`usize::random(&mut Rng) % self.streams.len()` is a parameter `start`;
the theorems quantify over every `start < tbl.length`, which is exactly
the range the source draws from. -/
def next_ready (probe : TcpStream → Probe) (start : Nat) (tbl : Tbl) :
    Option (Option Nat × Tbl × List (Nat × TcpStream)) :=
  if tbl.isEmpty then some (none, tbl, [])
  else next_ready_loop probe start tbl.length start tbl

/-- The stream-table invariant: at most one entry per remote address,
i.e. the key column has no duplicates. -/
def KeysNodup (tbl : Tbl) : Prop := (tbl.map Prod.fst).Nodup

theorem set_perm_cons_eraseIdx {α : Type} :
    ∀ (l : List α) (i : Nat), i < l.length → ∀ a : α,
      (l.set i a).Perm (a :: l.eraseIdx i)
  | [], i, h, a => by simp at h
  | x :: t, 0, _, a => by simp
  | x :: t, i + 1, h, a => by
    have ih := set_perm_cons_eraseIdx t i (by simpa using h) a
    have h1 : (x :: t.set i a).Perm (x :: (a :: t.eraseIdx i)) := ih.cons x
    have h2 : (x :: (a :: t.eraseIdx i)).Perm (a :: (x :: t.eraseIdx i)) :=
      List.Perm.swap a x _
    simpa using h1.trans h2

theorem perm_cons_eraseIdx_of_getElem? {α : Type} :
    ∀ (l : List α) (i : Nat) (e : α), l[i]? = some e →
      l.Perm (e :: l.eraseIdx i)
  | [], i, e, h => by simp at h
  | x :: t, 0, e, h => by
    simp only [List.getElem?_cons_zero, Option.some.injEq] at h
    subst h
    simp
  | x :: t, i + 1, e, h => by
    simp only [List.getElem?_cons_succ] at h
    have ih := perm_cons_eraseIdx_of_getElem? t i e h
    have h1 : (x :: t).Perm (x :: (e :: t.eraseIdx i)) := ih.cons x
    have h2 : (x :: (e :: t.eraseIdx i)).Perm (e :: (x :: t.eraseIdx i)) :=
      List.Perm.swap e x _
    simpa using h1.trans h2

theorem swapRemove_eq_of_getLast? {l : Tbl} {last : Nat × TcpStream}
    (h : l.getLast? = some last) (i : Nat) :
    swapRemove l i = (l.set i last).dropLast := by
  unfold swapRemove
  rw [h]

theorem swapRemove_perm_eraseIdx (l : Tbl) (i : Nat) (h : i < l.length) :
    (swapRemove l i).Perm (l.eraseIdx i) := by
  have hne : l ≠ [] := by rintro rfl; simp at h
  obtain ⟨last, hlast⟩ :=
    Option.isSome_iff_exists.mp (List.getLast?_isSome.mpr hne)
  obtain ⟨ys, rfl⟩ := List.getLast?_eq_some_iff.mp hlast
  rw [swapRemove_eq_of_getLast? hlast]
  rcases Nat.lt_or_ge i ys.length with hows | hows
  · rw [List.set_append_left _ _ hows, List.dropLast_concat,
      List.eraseIdx_append_of_lt_length hows]
    exact (set_perm_cons_eraseIdx ys i hows last).trans
      (List.perm_append_singleton _ _).symm
  · have hi : i = ys.length := by
      have hlen : (ys ++ [last]).length = ys.length + 1 := by simp
      omega
    subst hi
    rw [List.set_append_right _ _ (Nat.le_refl _), Nat.sub_self,
      List.eraseIdx_append_of_length_le (Nat.le_refl _), Nat.sub_self]
    simp

theorem swapRemove_length (l : Tbl) (i : Nat) (h : i < l.length) :
    (swapRemove l i).length = l.length - 1 := by
  rw [(swapRemove_perm_eraseIdx l i h).length_eq, List.length_eraseIdx_of_lt h]

theorem swapRemove_getElem?_ne (l : Tbl) (i j : Nat)
    (hne : j ≠ i) (hj : j < l.length - 1) :
    (swapRemove l i)[j]? = l[j]? := by
  have hne2 : l ≠ [] := by rintro rfl; simp at hj
  obtain ⟨last, hlast⟩ :=
    Option.isSome_iff_exists.mp (List.getLast?_isSome.mpr hne2)
  obtain ⟨ys, rfl⟩ := List.getLast?_eq_some_iff.mp hlast
  have hys : j < ys.length := by
    have hlen : (ys ++ [last]).length = ys.length + 1 := by simp
    omega
  rw [swapRemove_eq_of_getLast? hlast]
  rcases Nat.lt_or_ge i ys.length with hows | hows
  · rw [List.set_append_left _ _ hows, List.dropLast_concat,
      List.getElem?_set_ne (Ne.symm hne), List.getElem?_append_left hys]
  · have hdrop : (ys ++ [last].set (i - ys.length) last).dropLast = ys := by
      cases hset : [last].set (i - ys.length) last with
      | nil => simp at hset
      | cons z zs =>
        have hz : zs = [] := by
          have hl := congrArg List.length hset
          simp at hl
          simpa using hl.symm
        subst hz
        simp
    rw [List.set_append_right _ _ hows, hdrop, List.getElem?_append_left hys]

theorem swapRemove_getElem?_self (l : Tbl) (i : Nat) (h : i < l.length - 1) :
    (swapRemove l i)[i]? = l[l.length - 1]? := by
  have hne : l ≠ [] := by rintro rfl; simp at h
  obtain ⟨last, hlast⟩ :=
    Option.isSome_iff_exists.mp (List.getLast?_isSome.mpr hne)
  obtain ⟨ys, rfl⟩ := List.getLast?_eq_some_iff.mp hlast
  have hys : i < ys.length := by
    have hlen : (ys ++ [last]).length = ys.length + 1 := by simp
    omega
  rw [swapRemove_eq_of_getLast? hlast, List.set_append_left _ _ hys,
    List.dropLast_concat]
  have hlen2 : (ys ++ [last]).length - 1 = ys.length := by simp
  rw [hlen2, List.getElem?_concat_length, List.getElem?_set_self hys]


theorem KeysNodup.swapRemove {tbl : Tbl} (h : KeysNodup tbl) (i : Nat)
    (hi : i < tbl.length) : KeysNodup (Afc.swapRemove tbl i) := by
  have hp := (swapRemove_perm_eraseIdx tbl i hi).map Prod.fst
  have hs := (List.eraseIdx_sublist tbl i).map Prod.fst
  exact (h.sublist hs).perm hp.symm

theorem lookupS_eq_none_iff {tbl : Tbl} {a : Nat} :
    lookupS tbl a = none ↔ ∀ e ∈ tbl, e.1 ≠ a := by
  simp [lookupS, List.find?_eq_none]

theorem keysNodup_append {tbl : Tbl} (hn : KeysNodup tbl) {a : Nat}
    {s : TcpStream} (ha : ∀ e ∈ tbl, e.1 ≠ a) :
    KeysNodup (tbl ++ [(a, s)]) := by
  unfold KeysNodup at *
  rw [List.map_append]
  refine ((List.perm_append_singleton a (tbl.map Prod.fst)).symm).nodup ?_
  rw [List.nodup_cons]
  refine ⟨?_, hn⟩
  simp only [List.mem_map, not_exists]
  rintro ⟨b, t⟩ ⟨hmem, hfst⟩
  exact ha _ hmem hfst

/-- The message `d`, under parse/decrypt oracle `o` and channel table
`chans`, addresses an existing channel and its payload parses and
decrypts to sequence `s` with a matching label: the conditions under
which `open_data` reaches the replay check (given the channel is not
exhausted). -/
def DecryptsTo (o : Oracle) (chans : Chans) (d : Data) (s : Nat) : Prop :=
  d.version = VersionV1 ∧
  ∃ chan ct label pt,
    chans d.afc_id = some chan ∧
    o.parse d.ciphertext = Except.ok (.data ct) ∧
    o.overhead ≤ ct.length ∧
    o.openMsg chan.chan_id.node_id ct = Except.ok (label, s, pt) ∧
    chan.chan_id.label = label

theorem open_data_reaches_replay_check {o : Oracle} {chans : Chans}
    {d : Data} {chan : Chan} {ct : List Nat} {label s : Nat} {pt : List Nat}
    {m : Nat}
    (hv : d.version = VersionV1)
    (hc : chans d.afc_id = some chan)
    (hn : chan.next_min_seq = some m)
    (hp : o.parse d.ciphertext = Except.ok (.data ct))
    (hlen : o.overhead ≤ ct.length)
    (ho : o.openMsg chan.chan_id.node_id ct = Except.ok (label, s, pt))
    (hl : chan.chan_id.label = label) :
    open_data o chans d =
      if s < m then (.error (.MsgReplayed s), chans)
      else (.ok (pt, d.afc_id, label, s),
        updateChan chans d.afc_id { chan with next_min_seq := seqCheckedAdd1 s }) := by
  have hlen2 : ¬ ct.length < o.overhead := Nat.not_lt.mpr hlen
  simp [open_data, hv, hc, hn, hp, hlen2, ho, hl]

theorem open_data_exhausted {o : Oracle} {chans : Chans} {d : Data}
    {chan : Chan}
    (hv : d.version = VersionV1)
    (hc : chans d.afc_id = some chan)
    (hn : chan.next_min_seq = none) :
    open_data o chans d = (.error .EndOfChannel, chans) := by
  simp [open_data, hv, hc, hn]

theorem nodeIdStateAfter_eq (n : Nat) : nodeIdStateAfter n = n % 2 ^ 32 := by
  induction n with
  | zero => rfl
  | succ n ih =>
    simp only [nodeIdStateAfter, get_next_node_id, ih]
    omega

/-- C3: `add_channel` with an already-present `afc_id` returns `Ok` and
leaves the whole channel table (the existing entry included) unchanged;
with an absent `afc_id` it returns `Ok`, inserts an entry whose
`next_min_seq` is `Seq(0)`, and changes no other entry. -/
theorem add_channel_no_clobber (chans : Chans) (id net_id team_id : Nat)
    (chan_id : ChannelId) (addr : Nat) :
    ((chans id).isSome →
      (add_channel chans id net_id team_id chan_id addr).1 = .ok () ∧
      ∀ i, (add_channel chans id net_id team_id chan_id addr).2 i = chans i) ∧
    (chans id = none →
      (add_channel chans id net_id team_id chan_id addr).1 = .ok () ∧
      (add_channel chans id net_id team_id chan_id addr).2 id =
        some { net_id := net_id, chan_id := chan_id, addr := addr,
               next_min_seq := some 0 } ∧
      ∀ i, i ≠ id →
        (add_channel chans id net_id team_id chan_id addr).2 i = chans i) := by
  constructor
  · intro hs
    obtain ⟨c, hc⟩ := Option.isSome_iff_exists.mp hs
    simp [add_channel, hc]
  · intro hc
    refine ⟨by simp [add_channel, hc], by simp [add_channel, hc, updateChan], ?_⟩
    intro i hi
    simp [add_channel, hc, updateChan, hi]

/-- The channel-table entry used by the witnesses below. -/
def chanW : Chan :=
  { net_id := 3, chan_id := ⟨4, 5⟩, addr := 6, next_min_seq := some 7 }

/-- A one-entry channel table used by the witnesses below. -/
def chansW : Chans := fun i => if i = 1 then some chanW else none

theorem add_channel_no_clobber_witness :
    ((chansW 1).isSome = true ∧
      ((add_channel chansW 1 5 6 ⟨7, 8⟩ 9).1 = .ok () ∧
        ∀ i, (add_channel chansW 1 5 6 ⟨7, 8⟩ 9).2 i = chansW i)) ∧
    (chansW 2 = none ∧
      ((add_channel chansW 2 5 6 ⟨7, 8⟩ 9).1 = .ok () ∧
        (add_channel chansW 2 5 6 ⟨7, 8⟩ 9).2 2 =
          some { net_id := 5, chan_id := ⟨7, 8⟩, addr := 9,
                 next_min_seq := some 0 } ∧
        ∀ i, i ≠ 2 → (add_channel chansW 2 5 6 ⟨7, 8⟩ 9).2 i = chansW i)) :=
  ⟨⟨rfl, (add_channel_no_clobber chansW 1 5 6 ⟨7, 8⟩ 9).1 rfl⟩,
   ⟨rfl, (add_channel_no_clobber chansW 2 5 6 ⟨7, 8⟩ 9).2 rfl⟩⟩

/-- C4: whenever `open_data` returns an error (version mismatch, unknown
channel, exhausted channel, parse failure, control-payload bug, payload
too small, decryption failure, label-mismatch bug, or replay), the
channel table is returned unchanged: `next_min_seq` advances only on the
successful return path. -/
theorem open_data_error_frame (o : Oracle) (chans : Chans) (d : Data)
    (e : AfcError) (h : (open_data o chans d).1 = .error e) :
    (open_data o chans d).2 = chans := by
  by_cases hv : d.version = VersionV1
  · cases hc : chans d.afc_id with
    | none => simp [open_data, hv, hc]
    | some chan =>
      cases hn : chan.next_min_seq with
      | none => simp [open_data, hv, hc, hn]
      | some m =>
        cases hp : o.parse d.ciphertext with
        | error u => simp [open_data, hv, hc, hn, hp]
        | ok pl =>
          cases pl with
          | control => simp [open_data, hv, hc, hn, hp]
          | data ct =>
            by_cases hlen : ct.length < o.overhead
            · simp [open_data, hv, hc, hn, hp, hlen]
            · cases ho : o.openMsg chan.chan_id.node_id ct with
              | error u => simp [open_data, hv, hc, hn, hp, hlen, ho]
              | ok t =>
                obtain ⟨label, seq, pt⟩ := t
                by_cases hl : chan.chan_id.label = label
                · by_cases hs : seq < m
                  · simp [open_data, hv, hc, hn, hp, hlen, ho, hl, hs]
                  · exfalso
                    rw [open_data_reaches_replay_check hv hc hn hp
                      (Nat.not_lt.mp hlen) ho hl] at h
                    simp [hs] at h
                · simp [open_data, hv, hc, hn, hp, hlen, ho, hl]
  · simp [open_data, hv]

theorem open_data_error_frame_witness :
    (open_data ⟨fun _ => .error (), 0, fun _ _ => .error ()⟩ chansW
        ⟨1, 2, []⟩).1 = .error (.ChannelNotFound 2) ∧
    (open_data ⟨fun _ => .error (), 0, fun _ _ => .error ()⟩ chansW
        ⟨1, 2, []⟩).2 = chansW :=
  ⟨rfl, open_data_error_frame _ chansW ⟨1, 2, []⟩ (.ChannelNotFound 2) rfl⟩

/-- C10 counterexample: after `2^32` calls the `u32` counter has wrapped,
so the next call returns `0`, not one more than the previous call's
`2^32 - 1`: the claim fails at call number `2^32 + 1`. -/
theorem get_next_node_id_wrap_counterexample :
    (get_next_node_id (nodeIdStateAfter (2 ^ 32))).1 ≠
      (get_next_node_id (nodeIdStateAfter (2 ^ 32 - 1))).1 + 1 := by
  rw [show (get_next_node_id (nodeIdStateAfter (2 ^ 32))).1
        = nodeIdStateAfter (2 ^ 32) from rfl,
    show (get_next_node_id (nodeIdStateAfter (2 ^ 32 - 1))).1
        = nodeIdStateAfter (2 ^ 32 - 1) from rfl,
    nodeIdStateAfter_eq, nodeIdStateAfter_eq]
  omega

/-- C10 amended: the first call returns `NodeId(0)` and, while the number
of prior calls stays below `2^32`, every call returns exactly one more
than the previous call's result; at `2^32` calls the `u32` counter wraps
back to `0`. -/
theorem get_next_node_id_monotone :
    (get_next_node_id (nodeIdStateAfter 0)).1 = 0 ∧
    (∀ n, n + 1 < 2 ^ 32 →
      (get_next_node_id (nodeIdStateAfter (n + 1))).1 =
        (get_next_node_id (nodeIdStateAfter n)).1 + 1) ∧
    (get_next_node_id (nodeIdStateAfter (2 ^ 32))).1 = 0 := by
  refine ⟨rfl, ?_, ?_⟩
  · intro n h
    simp only [get_next_node_id, nodeIdStateAfter_eq]
    omega
  · simp only [get_next_node_id, nodeIdStateAfter_eq]
    omega

theorem get_next_node_id_monotone_witness :
    5 + 1 < 2 ^ 32 ∧
    (get_next_node_id (nodeIdStateAfter (5 + 1))).1 =
      (get_next_node_id (nodeIdStateAfter 5)).1 + 1 :=
  ⟨by norm_num, get_next_node_id_monotone.2.1 5 (by norm_num)⟩

/-- C5: when the stream starts with a valid magic and its length prefix
`len` exceeds `10485760`, `read_msg` fails with `MsgTooLarge{got: len,
max: 10485760}` having consumed exactly the 8 header bytes: no body byte
is read (and hence no body buffer is built) before the check. -/
theorem read_msg_too_large (des : List Nat → Except Unit Msg)
    (stream : List Nat)
    (h8 : WIRE_HEADER_SIZE ≤ stream.length)
    (hm : stream.take 4 = WIRE_MAGIC)
    (hlen : u32le ((stream.drop 4).take 4) > 10485760) :
    read_msg des stream =
      (.error (.MsgTooLarge (u32le ((stream.drop 4).take 4)) 10485760), 8) := by
  have h8a : 8 ≤ stream.length := by simpa [WIRE_HEADER_SIZE] using h8
  have h2 : MAX_MSG_SIZE = 10485760 := by norm_num [MAX_MSG_SIZE]
  simp [read_msg, hm, h2, hlen, WIRE_HEADER_SIZE]
  omega

/-- A deserialization oracle that always fails, used by witnesses (the
claims under test fail before deserialization is reached). -/
def desW : List Nat → Except Unit Msg := fun _ => .error ()

theorem read_msg_too_large_witness :
    WIRE_HEADER_SIZE ≤
      ([0x41, 0x46, 0x43, 0x00, 0xFF, 0xFF, 0xFF, 0xFF] : List Nat).length ∧
    ([0x41, 0x46, 0x43, 0x00, 0xFF, 0xFF, 0xFF, 0xFF] : List Nat).take 4 =
      WIRE_MAGIC ∧
    u32le ((([0x41, 0x46, 0x43, 0x00, 0xFF, 0xFF, 0xFF, 0xFF] :
      List Nat).drop 4).take 4) > 10485760 ∧
    u32le ([0xFF, 0xFF, 0xFF, 0xFF] : List Nat) = 0xFFFFFFFF ∧
    read_msg desW [0x41, 0x46, 0x43, 0x00, 0xFF, 0xFF, 0xFF, 0xFF] =
      (.error (.MsgTooLarge
        (u32le ((([0x41, 0x46, 0x43, 0x00, 0xFF, 0xFF, 0xFF, 0xFF] :
          List Nat).drop 4).take 4)) 10485760), 8) :=
  ⟨by decide, by decide, by decide, by decide,
   read_msg_too_large desW [0x41, 0x46, 0x43, 0x00, 0xFF, 0xFF, 0xFF, 0xFF]
     (by decide) (by decide) (by decide)⟩

/-- C6: when the first four bytes of the stream differ from `"AFC\0"`,
`read_msg` fails with `InvalidMagic` carrying those four bytes read as a
little-endian `u32`, consuming exactly the 8 header bytes.  No
hypothesis constrains the length prefix, so the magic check precedes the
length-cap check: an oversize length prefix still reports
`InvalidMagic`. -/
theorem read_msg_invalid_magic (des : List Nat → Except Unit Msg)
    (stream : List Nat)
    (h8 : WIRE_HEADER_SIZE ≤ stream.length)
    (hm : stream.take 4 ≠ WIRE_MAGIC) :
    read_msg des stream =
      (.error (.InvalidMagic (u32le (stream.take 4))), 8) := by
  have h8a : 8 ≤ stream.length := by simpa [WIRE_HEADER_SIZE] using h8
  simp [read_msg, hm, WIRE_HEADER_SIZE]
  omega

theorem read_msg_invalid_magic_witness :
    WIRE_HEADER_SIZE ≤
      ([0x58, 0x59, 0x5A, 0x00, 0xFF, 0xFF, 0xFF, 0xFF] : List Nat).length ∧
    ([0x58, 0x59, 0x5A, 0x00, 0xFF, 0xFF, 0xFF, 0xFF] : List Nat).take 4 ≠
      WIRE_MAGIC ∧
    u32le ([0x58, 0x59, 0x5A, 0x00] : List Nat) = 0x005A5958 ∧
    read_msg desW [0x58, 0x59, 0x5A, 0x00, 0xFF, 0xFF, 0xFF, 0xFF] =
      (.error (.InvalidMagic (u32le (([0x58, 0x59, 0x5A, 0x00, 0xFF, 0xFF,
        0xFF, 0xFF] : List Nat).take 4))), 8) :=
  ⟨by decide, by decide, by decide,
   read_msg_invalid_magic desW [0x58, 0x59, 0x5A, 0x00, 0xFF, 0xFF, 0xFF, 0xFF]
     (by decide) (by decide)⟩

/-- C2: once a successful `open_data` accepts sequence `s = 2^64 - 1`
(the checked increment of `next_min_seq` overflows), the entry's
`next_min_seq` becomes EXHAUSTED, and a subsequent `open_data` on that
channel fails with `EndOfChannel` for EVERY parse/decrypt oracle `o2` —
including oracles whose parse or decrypt would fail — which shows the
exhaustion check runs before the payload is parsed or decrypted; the
failing call also leaves the table unchanged. -/
theorem open_data_channel_exhaustion (o : Oracle) (chans : Chans) (d : Data)
    (chan : Chan) (ct : List Nat) (label : Nat) (pt : List Nat) (m : Nat)
    (hv : d.version = VersionV1)
    (hc : chans d.afc_id = some chan)
    (hn : chan.next_min_seq = some m)
    (hp : o.parse d.ciphertext = Except.ok (.data ct))
    (hlen : o.overhead ≤ ct.length)
    (ho : o.openMsg chan.chan_id.node_id ct = Except.ok (label, 2 ^ 64 - 1, pt))
    (hl : chan.chan_id.label = label)
    (hm : m ≤ 2 ^ 64 - 1) :
    (open_data o chans d).1 = .ok (pt, d.afc_id, label, 2 ^ 64 - 1) ∧
    (open_data o chans d).2 d.afc_id =
      some { chan with next_min_seq := none } ∧
    ∀ (o2 : Oracle) (d2 : Data), d2.version = VersionV1 →
      d2.afc_id = d.afc_id →
      open_data o2 (open_data o chans d).2 d2 =
        (.error .EndOfChannel, (open_data o chans d).2) := by
  have heq := open_data_reaches_replay_check hv hc hn hp hlen ho hl
  have hslt : ¬ (2 ^ 64 - 1 < m) := Nat.not_lt.mpr hm
  have hover : seqCheckedAdd1 (2 ^ 64 - 1) = none := by
    unfold seqCheckedAdd1
    norm_num
  have hover2 : seqCheckedAdd1 18446744073709551615 = none := by
    unfold seqCheckedAdd1
    norm_num
  rw [heq]
  simp only [if_neg hslt]
  refine ⟨trivial, by simp [updateChan, hover, hover2], ?_⟩
  intro o2 d2 hv2 hid2
  have hpost : updateChan chans d.afc_id
      { chan with next_min_seq := seqCheckedAdd1 (2 ^ 64 - 1) } d2.afc_id =
      some { chan with next_min_seq := none } := by
    simp [updateChan, hid2, hover, hover2]
  exact open_data_exhausted hv2 hpost rfl

/-- The parse/decrypt oracle for the exhaustion witness: every payload
parses to itself and decrypts with label `5` to sequence `2^64 - 1`. -/
def oExh : Oracle :=
  ⟨fun ct => .ok (.data ct), 0, fun _ _ => .ok (5, 2 ^ 64 - 1, [7])⟩

theorem open_data_channel_exhaustion_witness :
    (Data.mk 1 1 [9]).version = VersionV1 ∧
    chansW (Data.mk 1 1 [9]).afc_id = some chanW ∧
    chanW.next_min_seq = some 7 ∧
    oExh.parse (Data.mk 1 1 [9]).ciphertext = Except.ok (.data [9]) ∧
    oExh.overhead ≤ ([9] : List Nat).length ∧
    oExh.openMsg chanW.chan_id.node_id [9] = Except.ok (5, 2 ^ 64 - 1, [7]) ∧
    chanW.chan_id.label = 5 ∧
    7 ≤ 2 ^ 64 - 1 ∧
    ((open_data oExh chansW (Data.mk 1 1 [9])).1 = .ok ([7], 1, 5, 2 ^ 64 - 1) ∧
     (open_data oExh chansW (Data.mk 1 1 [9])).2 (Data.mk 1 1 [9]).afc_id =
       some { chanW with next_min_seq := none } ∧
     ∀ (o2 : Oracle) (d2 : Data), d2.version = VersionV1 →
       d2.afc_id = (Data.mk 1 1 [9]).afc_id →
       open_data o2 (open_data oExh chansW (Data.mk 1 1 [9])).2 d2 =
         (.error .EndOfChannel, (open_data oExh chansW (Data.mk 1 1 [9])).2)) :=
  ⟨rfl, rfl, rfl, rfl, by decide, rfl, rfl, by decide,
   open_data_channel_exhaustion oExh chansW (Data.mk 1 1 [9]) chanW [9] 5 [7] 7
     rfl rfl rfl rfl (by decide) rfl rfl (by decide)⟩

/-- The parse/decrypt oracle for the C1 counterexample: ciphertext `[9]`
decrypts to sequence `2^64 - 1`, every other ciphertext to `0`, always
with label `5` (the label bound to `chanW`). -/
def oC1 : Oracle :=
  ⟨fun ct => .ok (.data ct), 0,
   fun _ ct => .ok (5, if ct = [9] then 2 ^ 64 - 1 else 0, [])⟩

/-- The first C1 message: decrypts to `2^64 - 1` under `oC1`. -/
def dC1a : Data := ⟨1, 1, [9]⟩

/-- The second C1 message: decrypts to `0` under `oC1`. -/
def dC1b : Data := ⟨1, 1, [8]⟩

/-- C1 counterexample: on the channel with `next_min_seq = Seq(7)`, a
message decrypting to `s = 2^64 - 1 ≥ 7` is accepted, but the entry's
`next_min_seq` is NOT set to `s + 1` (it becomes EXHAUSTED), and a
subsequent message on the same channel decrypting to `0 < s + 1` fails
with `EndOfChannel`, not `MsgReplayed(0)`: both halves of the claim fail
at this input. -/
theorem open_data_advance_counterexample :
    (open_data oC1 chansW dC1a).1 = .ok ([], 1, 5, 2 ^ 64 - 1) ∧
    (open_data oC1 chansW dC1a).2 1 ≠
      some { chanW with next_min_seq := some (2 ^ 64 - 1 + 1) } ∧
    DecryptsTo oC1 (open_data oC1 chansW dC1a).2 dC1b 0 ∧
    0 < 2 ^ 64 - 1 + 1 ∧
    (open_data oC1 (open_data oC1 chansW dC1a).2 dC1b).1 =
      .error .EndOfChannel ∧
    (Except.error .EndOfChannel :
        Except AfcError (List Nat × Nat × Nat × Nat)) ≠
      .error (.MsgReplayed 0) := by
  refine ⟨rfl, by decide, ?_, by norm_num, rfl, by simp⟩
  exact ⟨rfl, { chanW with next_min_seq := none }, [8], 5, [], rfl, rfl,
    by decide, rfl, rfl⟩

/-- C1 amended: on a channel entry with `next_min_seq = Seq(m)`, a Data
message decrypting to sequence `s < m` fails with `MsgReplayed(s)` and
leaves the table unchanged; with `s ≥ m` it succeeds and sets the
entry's `next_min_seq` to the checked increment of `s` — `s + 1` when
`s + 1 < 2^64`, EXHAUSTED when `s = 2^64 - 1` — touching no other entry;
hence after accepting `s` with `s + 1 < 2^64`, any subsequent message on
the same channel decrypting to `s2 < s + 1` fails with
`MsgReplayed(s2)`. -/
theorem open_data_replay_protection (o : Oracle) (chans : Chans) (d : Data)
    (chan : Chan) (ct : List Nat) (label s : Nat) (pt : List Nat) (m : Nat)
    (hv : d.version = VersionV1)
    (hc : chans d.afc_id = some chan)
    (hn : chan.next_min_seq = some m)
    (hp : o.parse d.ciphertext = Except.ok (.data ct))
    (hlen : o.overhead ≤ ct.length)
    (ho : o.openMsg chan.chan_id.node_id ct = Except.ok (label, s, pt))
    (hl : chan.chan_id.label = label) :
    (s < m → open_data o chans d = (.error (.MsgReplayed s), chans)) ∧
    (m ≤ s →
      (open_data o chans d).1 = .ok (pt, d.afc_id, label, s) ∧
      (open_data o chans d).2 d.afc_id =
        some { chan with next_min_seq := seqCheckedAdd1 s } ∧
      (∀ i, i ≠ d.afc_id → (open_data o chans d).2 i = chans i) ∧
      (s + 1 < 2 ^ 64 →
        ∀ (o2 : Oracle) (d2 : Data) (ct2 : List Nat) (label2 s2 : Nat)
          (pt2 : List Nat),
          d2.version = VersionV1 →
          d2.afc_id = d.afc_id →
          o2.parse d2.ciphertext = Except.ok (.data ct2) →
          o2.overhead ≤ ct2.length →
          o2.openMsg chan.chan_id.node_id ct2 = Except.ok (label2, s2, pt2) →
          chan.chan_id.label = label2 →
          s2 < s + 1 →
          open_data o2 (open_data o chans d).2 d2 =
            (.error (.MsgReplayed s2), (open_data o chans d).2))) := by
  have heq := open_data_reaches_replay_check hv hc hn hp hlen ho hl
  constructor
  · intro hs
    rw [heq, if_pos hs]
  · intro hms
    have hs : ¬ s < m := Nat.not_lt.mpr hms
    rw [heq]
    simp only [if_neg hs]
    refine ⟨trivial, by simp [updateChan], ?_, ?_⟩
    · intro i hi
      simp [updateChan, hi]
    · intro hlt o2 d2 ct2 label2 s2 pt2 hv2 hid2 hp2 hlen2 ho2 hl2 hs2
      have hadd : seqCheckedAdd1 s = some (s + 1) := by
        unfold seqCheckedAdd1
        rw [if_pos hlt]
      have hpost : updateChan chans d.afc_id
          { chan with next_min_seq := seqCheckedAdd1 s } d2.afc_id =
          some { chan with next_min_seq := some (s + 1) } := by
        simp [updateChan, hid2, hadd]
      have heq2 := open_data_reaches_replay_check hv2 hpost rfl hp2 hlen2 ho2 hl2
      rw [heq2, if_pos hs2]

/-- The parse/decrypt oracle for the C1 witness: everything decrypts to
sequence `3`, below `chanW`'s `next_min_seq = Seq(7)`. -/
def oRep : Oracle := ⟨fun ct => .ok (.data ct), 0, fun _ _ => .ok (5, 3, [2])⟩

theorem open_data_replay_protection_witness :
    (Data.mk 1 1 [4]).version = VersionV1 ∧
    chansW (Data.mk 1 1 [4]).afc_id = some chanW ∧
    chanW.next_min_seq = some 7 ∧
    oRep.parse (Data.mk 1 1 [4]).ciphertext = Except.ok (.data [4]) ∧
    oRep.overhead ≤ ([4] : List Nat).length ∧
    oRep.openMsg chanW.chan_id.node_id [4] = Except.ok (5, 3, [2]) ∧
    chanW.chan_id.label = 5 ∧
    ((3 < 7 →
      open_data oRep chansW (Data.mk 1 1 [4]) =
        (.error (.MsgReplayed 3), chansW)) ∧
     (7 ≤ 3 →
      (open_data oRep chansW (Data.mk 1 1 [4])).1 = .ok ([2], 1, 5, 3) ∧
      (open_data oRep chansW (Data.mk 1 1 [4])).2 1 =
        some { chanW with next_min_seq := seqCheckedAdd1 3 } ∧
      (∀ i, i ≠ (Data.mk 1 1 [4]).afc_id →
        (open_data oRep chansW (Data.mk 1 1 [4])).2 i = chansW i) ∧
      (3 + 1 < 2 ^ 64 →
        ∀ (o2 : Oracle) (d2 : Data) (ct2 : List Nat) (label2 s2 : Nat)
          (pt2 : List Nat),
          d2.version = VersionV1 →
          d2.afc_id = (Data.mk 1 1 [4]).afc_id →
          o2.parse d2.ciphertext = Except.ok (.data ct2) →
          o2.overhead ≤ ct2.length →
          o2.openMsg chanW.chan_id.node_id ct2 = Except.ok (label2, s2, pt2) →
          chanW.chan_id.label = label2 →
          s2 < 3 + 1 →
          open_data o2 (open_data oRep chansW (Data.mk 1 1 [4])).2 d2 =
            (.error (.MsgReplayed s2),
             (open_data oRep chansW (Data.mk 1 1 [4])).2)))) :=
  ⟨rfl, rfl, rfl, rfl, by decide, rfl, rfl,
   open_data_replay_protection oRep chansW (Data.mk 1 1 [4]) chanW [4] 5 3 [2] 7
     rfl rfl rfl rfl (by decide) rfl rfl⟩

theorem insertS_keys (tbl : Tbl) (hk : KeysNodup tbl) (s : TcpStream) :
    KeysNodup (insertS tbl s).2 := by
  cases hp : s.peer with
  | none => simpa [insertS, hp] using hk
  | some a =>
    cases hl : lookupS tbl a with
    | some old => simpa [insertS, hp, hl] using hk
    | none =>
      have hnot := lookupS_eq_none_iff.mp hl
      simpa [insertS, hp, hl] using keysNodup_append hk hnot

theorem get_or_open_keys (tbl : Tbl) (hk : KeysNodup tbl)
    (conn : Except Unit TcpStream) (a : Nat) :
    KeysNodup (get_or_open conn tbl a).2 := by
  cases hl : lookupS tbl a with
  | some old => simpa [get_or_open, hl] using hk
  | none =>
    cases conn with
    | error u => simpa [get_or_open, hl] using hk
    | ok s =>
      have hnot := lookupS_eq_none_iff.mp hl
      simpa [get_or_open, hl] using keysNodup_append hk hnot

theorem connect_tbl (sd : TcpStream → Except Unit Unit)
    (conn : Except Unit TcpStream) (tbl : Tbl) :
    (connect sd conn tbl).2.1 =
      match conn with
      | .error _ => tbl
      | .ok s => (insertS tbl s).2 := by
  cases conn with
  | error u => rfl
  | ok s =>
    rcases hi : insertS tbl s with ⟨res, tbl2⟩
    rcases res with e | ⟨old, dupe⟩
    · simp [connect, hi]
    · rcases dupe with _ | dupeS
      · simp [connect, hi]
      · rcases hsd : sd dupeS with u | u <;> simp [connect, hi, hsd]

theorem connect_keys (tbl : Tbl) (hk : KeysNodup tbl)
    (sd : TcpStream → Except Unit Unit) (conn : Except Unit TcpStream) :
    KeysNodup (connect sd conn tbl).2.1 := by
  rw [connect_tbl]
  cases conn with
  | error u => exact hk
  | ok s => exact insertS_keys tbl hk s

theorem try_get_or_open_keys (tbl : Tbl) (hk : KeysNodup tbl)
    (sd : TcpStream → Except Unit Unit) (conn : Except Unit TcpStream)
    (ma : Option Nat) :
    KeysNodup (try_get_or_open sd conn tbl ma).2.1 := by
  cases ma with
  | none => exact connect_keys tbl hk sd conn
  | some a =>
    rcases hg : get_or_open conn tbl a with ⟨r, tbl2⟩
    have h2 := get_or_open_keys tbl hk conn a
    rw [hg] at h2
    simpa [try_get_or_open, hg] using h2

theorem next_ready_loop_keys (probe : TcpStream → Probe) (start : Nat) :
    ∀ (fuel idx : Nat) (tbl : Tbl)
      (out : Option Nat × Tbl × List (Nat × TcpStream)),
      KeysNodup tbl →
      next_ready_loop probe start fuel idx tbl = some out →
      KeysNodup out.2.1 := by
  intro fuel
  induction fuel with
  | zero =>
    intro idx tbl out hk h
    simp only [next_ready_loop, Option.some.injEq] at h
    rw [← h]
    exact hk
  | succ fuel ih =>
    intro idx tbl out hk h
    cases he : tbl[idx]? with
    | none => simp [next_ready_loop, he] at h
    | some e =>
      cases hp : probe e.2 with
      | ready =>
        simp only [next_ready_loop, he, hp, Option.some.injEq] at h
        rw [← h]
        exact hk
      | pending =>
        simp only [next_ready_loop, he, hp] at h
        obtain ⟨out2, h2, hout⟩ := Option.map_eq_some'.mp h
        rw [← hout]
        exact ih _ tbl out2 hk h2
      | ioErr =>
        simp only [next_ready_loop, he, hp] at h
        obtain ⟨out2, h2, hout⟩ := Option.map_eq_some'.mp h
        rw [← hout]
        have hidx : idx < tbl.length := (List.getElem?_eq_some_iff.mp he).1
        exact ih _ _ out2 (hk.swapRemove idx hidx) h2

theorem next_ready_keys (probe : TcpStream → Probe) (start : Nat) (tbl : Tbl)
    (hk : KeysNodup tbl) (out : Option Nat × Tbl × List (Nat × TcpStream))
    (h : next_ready probe start tbl = some out) : KeysNodup out.2.1 := by
  unfold next_ready at h
  by_cases hemp : tbl.isEmpty
  · rw [if_pos hemp, Option.some.injEq] at h
    rw [← h]
    exact hk
  · rw [if_neg hemp] at h
    exact next_ready_loop_keys probe start tbl.length start tbl out hk h

/-- C7: the stream table holds at most one entry per remote address.
`insert` of a stream whose peer address is already present returns the
retained existing stream together with the offered stream as a
duplicate and leaves the table unchanged, and every table operation
(`insert`, `get_or_open`, `try_get_or_open`, `connect`, and `next_ready`
with its error eviction) preserves the at-most-one-entry-per-address
invariant (`KeysNodup`). -/
theorem stream_table_uniqueness (tbl : Tbl) (hk : KeysNodup tbl) :
    (∀ (s old : TcpStream) (a : Nat), s.peer = some a →
      lookupS tbl a = some old →
      insertS tbl s = (.ok (old, some s), tbl)) ∧
    (∀ s, KeysNodup (insertS tbl s).2) ∧
    (∀ conn a, KeysNodup (get_or_open conn tbl a).2) ∧
    (∀ sd conn, KeysNodup (connect sd conn tbl).2.1) ∧
    (∀ sd conn ma, KeysNodup (try_get_or_open sd conn tbl ma).2.1) ∧
    (∀ probe start out, next_ready probe start tbl = some out →
      KeysNodup out.2.1) := by
  refine ⟨?_, fun s => insertS_keys tbl hk s,
    fun conn a => get_or_open_keys tbl hk conn a,
    fun sd conn => connect_keys tbl hk sd conn,
    fun sd conn ma => try_get_or_open_keys tbl hk sd conn ma,
    fun probe start out h => next_ready_keys probe start tbl hk out h⟩
  intro s old a hp hl
  simp [insertS, hp, hl]

/-- A two-entry stream table used by the witnesses below. -/
def tblW : Tbl := [(10, ⟨0, some 10⟩), (11, ⟨1, some 11⟩)]

theorem stream_table_uniqueness_witness :
    KeysNodup tblW ∧
    ((∀ (s old : TcpStream) (a : Nat), s.peer = some a →
      lookupS tblW a = some old →
      insertS tblW s = (.ok (old, some s), tblW)) ∧
    (∀ s, KeysNodup (insertS tblW s).2) ∧
    (∀ conn a, KeysNodup (get_or_open conn tblW a).2) ∧
    (∀ sd conn, KeysNodup (connect sd conn tblW).2.1) ∧
    (∀ sd conn ma, KeysNodup (try_get_or_open sd conn tblW ma).2.1) ∧
    (∀ probe start out, next_ready probe start tblW = some out →
      KeysNodup out.2.1)) :=
  ⟨by unfold KeysNodup; decide,
   stream_table_uniqueness tblW (by unfold KeysNodup; decide)⟩

theorem connect_spec (sd : TcpStream → Except Unit Unit) (s : TcpStream)
    (tbl : Tbl) (a : Nat) (hp : s.peer = some a) :
    (∀ old, lookupS tbl a = some old →
      connect sd (.ok s) tbl = (.ok old, tbl, [s])) ∧
    (lookupS tbl a = none →
      connect sd (.ok s) tbl = (.ok s, tbl ++ [(a, s)], [])) := by
  constructor
  · intro old hl
    have hins : insertS tbl s = (.ok (old, some s), tbl) := by
      simp [insertS, hp, hl]
    cases hsd : sd s with
    | ok u => simp [connect, hins, hsd]
    | error u => simp [connect, hins, hsd]
  · intro hl
    have hins : insertS tbl s = (.ok (s, none), tbl ++ [(a, s)]) := by
      simp [insertS, hp, hl]
    simp [connect, hins]

theorem connect_sd_independent (sd sd2 : TcpStream → Except Unit Unit)
    (conn : Except Unit TcpStream) (tbl : Tbl) :
    connect sd conn tbl = connect sd2 conn tbl := by
  cases conn with
  | error u => rfl
  | ok s =>
    rcases hi : insertS tbl s with ⟨res, tbl2⟩
    rcases res with e | ⟨old, dupe⟩
    · simp [connect, hi]
    · rcases dupe with _ | dupeS
      · simp [connect, hi]
      · rcases hsd : sd dupeS with u | u <;>
          rcases hsd2 : sd2 dupeS with v | v <;>
          simp [connect, hi, hsd, hsd2]

/-- C9: `try_get_or_open((None, host))` opens a new connection (`conn`
models `TcpStream::connect(host)` succeeding with stream `s`).  If the
table already holds an entry at `s`'s peer address, the existing stream
is returned, the table is left unchanged, and shutdown is attempted on
the fresh duplicate `s`; the result never depends on the shutdown
oracle's outcome, i.e. a shutdown error is logged, not returned.
Otherwise `s` is inserted under its peer address and returned, with no
shutdown attempted. -/
theorem try_get_or_open_fresh_connect (sd : TcpStream → Except Unit Unit)
    (s : TcpStream) (tbl : Tbl) (a : Nat) (hp : s.peer = some a) :
    (∀ old, lookupS tbl a = some old →
      try_get_or_open sd (.ok s) tbl none = (.ok old, tbl, [s])) ∧
    (lookupS tbl a = none →
      try_get_or_open sd (.ok s) tbl none = (.ok s, tbl ++ [(a, s)], [])) ∧
    (∀ sd2, try_get_or_open sd (.ok s) tbl none =
      try_get_or_open sd2 (.ok s) tbl none) := by
  refine ⟨?_, ?_, ?_⟩
  · intro old hl
    exact (connect_spec sd s tbl a hp).1 old hl
  · intro hl
    exact (connect_spec sd s tbl a hp).2 hl
  · intro sd2
    exact connect_sd_independent sd sd2 (.ok s) tbl

theorem try_get_or_open_fresh_connect_witness :
    (TcpStream.mk 7 (some 10)).peer = some 10 ∧
    ((∀ old, lookupS tblW 10 = some old →
      try_get_or_open (fun _ => .ok ()) (.ok ⟨7, some 10⟩) tblW none =
        (.ok old, tblW, [⟨7, some 10⟩])) ∧
    (lookupS tblW 10 = none →
      try_get_or_open (fun _ => .ok ()) (.ok ⟨7, some 10⟩) tblW none =
        (.ok ⟨7, some 10⟩, tblW ++ [(10, ⟨7, some 10⟩)], [])) ∧
    (∀ sd2, try_get_or_open (fun _ => .ok ()) (.ok ⟨7, some 10⟩) tblW none =
      try_get_or_open sd2 (.ok ⟨7, some 10⟩) tblW none)) :=
  ⟨rfl, try_get_or_open_fresh_connect (fun _ => .ok ()) ⟨7, some 10⟩ tblW 10 rfl⟩

/-- Slot `j` is one the `next_ready` loop has not yet probed when its
cursor is at `idx`: after wrapping (`idx < start`) the unprobed slots
are the interval `[idx, min start len)`; before wrapping they are
`[idx, len)` together with `[0, start)`. -/
def inU (start idx len j : Nat) : Prop :=
  (idx < start ∧ idx ≤ j ∧ j < min start len) ∨
  (start ≤ idx ∧ ((idx ≤ j ∧ j < len) ∨ j < start))

/-- The remaining iteration count of the `next_ready` loop never exceeds
the number of unprobed slots. -/
def fuelBound (start idx len fuel : Nat) : Prop :=
  (idx < start ∧ fuel ≤ min start len - idx) ∨
  (start ≤ idx ∧ fuel ≤ (len - idx) + start)

theorem keys_distinct {tbl : Tbl} (hk : KeysNodup tbl) {i j : Nat}
    (hne : i ≠ j) {a b : Nat × TcpStream}
    (ha : tbl[i]? = some a) (hb : tbl[j]? = some b) : a.1 ≠ b.1 := by
  intro heq
  have hmi : (tbl.map Prod.fst)[i]? = some a.1 := by
    rw [List.getElem?_map, ha]
    rfl
  have hmj : (tbl.map Prod.fst)[j]? = some b.1 := by
    rw [List.getElem?_map, hb]
    rfl
  have hil : i < (tbl.map Prod.fst).length := by
    rw [List.length_map]
    exact (List.getElem?_eq_some_iff.mp ha).1
  exact hne (List.getElem?_inj hil hk (by rw [hmi, hmj, heq]))

theorem mem_of_mem_swapRemove {tbl : Tbl} {i : Nat} (hi : i < tbl.length)
    {x : Nat × TcpStream} (h : x ∈ swapRemove tbl i) : x ∈ tbl :=
  List.mem_of_mem_eraseIdx ((swapRemove_perm_eraseIdx tbl i hi).mem_iff.mp h)

theorem next_ready_loop_spec (probe : TcpStream → Probe) (start : Nat) :
    ∀ (fuel idx : Nat) (tbl : Tbl) (visited : List Nat),
      fuel ≤ tbl.length →
      (tbl.length = 0 ∨ idx < tbl.length) →
      fuelBound start idx tbl.length fuel →
      KeysNodup tbl →
      (0 < fuel → ∀ j, inU start idx tbl.length j →
        ∀ x, tbl[j]? = some x → x.1 ∉ visited) →
      ∃ res tbl2 trace,
        next_ready_loop probe start fuel idx tbl = some (res, tbl2, trace) ∧
        (trace.map Prod.fst).Nodup ∧
        (∀ a ∈ trace.map Prod.fst, a ∉ visited) ∧
        trace.length ≤ fuel ∧
        (∀ x ∈ trace, x ∈ tbl) ∧
        tbl.Perm (tbl2 ++ trace.filter (fun x => probe x.2 == Probe.ioErr)) ∧
        (∀ a, res = some a →
          ∃ p x, trace = p ++ [x] ∧ probe x.2 = Probe.ready ∧ x.1 = a ∧
            ∀ y ∈ p, probe y.2 ≠ Probe.ready) ∧
        (res = none → ∀ x ∈ trace, probe x.2 ≠ Probe.ready) := by
  intro fuel
  induction fuel with
  | zero =>
    intro idx tbl visited H1 H2 H3 H4 H5
    exact ⟨none, tbl, [], rfl, by simp, by simp, by simp, by simp, by simp,
      by simp, by simp⟩
  | succ fuel ih =>
    intro idx tbl visited H1 H2 H3 H4 H5
    simp only [fuelBound] at H3
    have hidx : idx < tbl.length := by omega
    obtain ⟨e, he⟩ : ∃ x, tbl[idx]? = some x :=
      ⟨tbl[idx], List.getElem?_eq_some_iff.mpr ⟨hidx, rfl⟩⟩
    have hself : inU start idx tbl.length idx := by
      simp only [inU]
      omega
    have hev : e.1 ∉ visited := H5 (by omega) idx hself e he
    have hemem : e ∈ tbl := List.getElem?_mem he
    cases hp : probe e.2 with
    | ready =>
      refine ⟨some e.1, tbl, [e], ?_, by simp, by simpa using hev, by simp,
        by simpa using hemem, by simp [hp], ?_, by simp⟩
      · simp [next_ready_loop, he, hp]
      · intro a ha
        exact ⟨[], e, by simp, hp, Option.some.inj ha, by simp⟩
    | pending =>
      have happ : ∃ res tbl2 trace2,
          next_ready_loop probe start fuel ((idx + 1) % tbl.length) tbl =
            some (res, tbl2, trace2) ∧
          (trace2.map Prod.fst).Nodup ∧
          (∀ a ∈ trace2.map Prod.fst, a ∉ visited ++ [e.1]) ∧
          trace2.length ≤ fuel ∧
          (∀ x ∈ trace2, x ∈ tbl) ∧
          tbl.Perm (tbl2 ++ trace2.filter (fun x => probe x.2 == Probe.ioErr)) ∧
          (∀ a, res = some a →
            ∃ p x, trace2 = p ++ [x] ∧ probe x.2 = Probe.ready ∧ x.1 = a ∧
              ∀ y ∈ p, probe y.2 ≠ Probe.ready) ∧
          (res = none → ∀ x ∈ trace2, probe x.2 ≠ Probe.ready) := by
        rcases Nat.lt_or_ge (idx + 1) tbl.length with hlt | hge
        · rw [Nat.mod_eq_of_lt hlt]
          refine ih (idx + 1) tbl (visited ++ [e.1]) (by omega)
            (by omega) (by simp only [fuelBound]; omega) H4 ?_
          intro hf j hjU x hjx
          simp only [inU] at hjU
          have key : inU start idx tbl.length j ∧ j ≠ idx := by
            simp only [inU]
            omega
          have h1 : x.1 ∉ visited := H5 (by omega) j key.1 x hjx
          have h2 : x.1 ≠ e.1 := keys_distinct H4 key.2 hjx he
          simp only [List.mem_append, List.mem_singleton, not_or]
          exact ⟨h1, h2⟩
        · have heq : idx + 1 = tbl.length := by omega
          rw [heq, Nat.mod_self]
          refine ih 0 tbl (visited ++ [e.1]) (by omega)
            (by omega) (by simp only [fuelBound]; omega) H4 ?_
          intro hf j hjU x hjx
          simp only [inU] at hjU
          have key : inU start idx tbl.length j ∧ j ≠ idx := by
            simp only [inU]
            omega
          have h1 : x.1 ∉ visited := H5 (by omega) j key.1 x hjx
          have h2 : x.1 ≠ e.1 := keys_distinct H4 key.2 hjx he
          simp only [List.mem_append, List.mem_singleton, not_or]
          exact ⟨h1, h2⟩
      obtain ⟨res, tbl2, trace2, heq2, hnd2, hnv2, hln2, hmem2, hperm2,
        hrdy2, hnone2⟩ := happ
      refine ⟨res, tbl2, e :: trace2, ?_, ?_, ?_, ?_, ?_, ?_, ?_, ?_⟩
      · simp [next_ready_loop, he, hp, heq2]
      · rw [List.map_cons, List.nodup_cons]
        exact ⟨fun hin => (hnv2 e.1 hin) (by simp), hnd2⟩
      · intro a ha
        rw [List.map_cons, List.mem_cons] at ha
        rcases ha with rfl | hmem
        · exact hev
        · exact fun h => hnv2 a hmem (List.mem_append_left _ h)
      · simp only [List.length_cons]
        omega
      · intro x hx
        rcases List.mem_cons.mp hx with rfl | hmem
        · exact hemem
        · exact hmem2 x hmem
      · have hfe : (fun x => probe x.2 == Probe.ioErr) e = false := by
          simp [hp]
        rw [List.filter_cons_of_neg (by simp [hfe])]
        exact hperm2
      · intro a ha
        obtain ⟨p, x, htr, hx1, hx2, hx3⟩ := hrdy2 a ha
        refine ⟨e :: p, x, by simp [htr], hx1, hx2, ?_⟩
        intro y hy
        rcases List.mem_cons.mp hy with rfl | hyp
        · simp [hp]
        · exact hx3 y hyp
      · intro hnone x hx
        rcases List.mem_cons.mp hx with rfl | hmem
        · simp [hp]
        · exact hnone2 hnone x hmem
    | ioErr =>
      have hlen2 : (swapRemove tbl idx).length = tbl.length - 1 :=
        swapRemove_length tbl idx hidx
      have happ : ∃ res tbl3 trace2,
          next_ready_loop probe start fuel
            (if idx = (swapRemove tbl idx).length then 0
             else if idx < start ∧ start ≤ (swapRemove tbl idx).length then
               (idx + 1) % (swapRemove tbl idx).length
             else idx) (swapRemove tbl idx) = some (res, tbl3, trace2) ∧
          (trace2.map Prod.fst).Nodup ∧
          (∀ a ∈ trace2.map Prod.fst, a ∉ visited ++ [e.1]) ∧
          trace2.length ≤ fuel ∧
          (∀ x ∈ trace2, x ∈ swapRemove tbl idx) ∧
          (swapRemove tbl idx).Perm
            (tbl3 ++ trace2.filter (fun x => probe x.2 == Probe.ioErr)) ∧
          (∀ a, res = some a →
            ∃ p x, trace2 = p ++ [x] ∧ probe x.2 = Probe.ready ∧ x.1 = a ∧
              ∀ y ∈ p, probe y.2 ≠ Probe.ready) ∧
          (res = none → ∀ x ∈ trace2, probe x.2 ≠ Probe.ready) := by
        have hk2 : KeysNodup (swapRemove tbl idx) := H4.swapRemove idx hidx
        rw [hlen2]
        by_cases hA : idx = tbl.length - 1
        · rw [if_pos hA]
          refine ih 0 (swapRemove tbl idx) (visited ++ [e.1])
            (by omega) (by omega) (by simp only [fuelBound]; omega) hk2 ?_
          intro hf j hjU x hjx
          rw [hlen2] at hjU
          simp only [inU] at hjU
          have hjlt : j < tbl.length - 1 := by omega
          have hjne : j ≠ idx := by omega
          rw [swapRemove_getElem?_ne tbl idx j hjne hjlt] at hjx
          have key : inU start idx tbl.length j ∧ j ≠ idx := by
            simp only [inU]
            omega
          have h1 : x.1 ∉ visited := H5 (by omega) j key.1 x hjx
          have h2 : x.1 ≠ e.1 := keys_distinct H4 key.2 hjx he
          simp only [List.mem_append, List.mem_singleton, not_or]
          exact ⟨h1, h2⟩
        · rw [if_neg hA]
          by_cases hB : idx < start ∧ start ≤ tbl.length - 1
          · rw [if_pos hB]
            rcases Nat.lt_or_ge (idx + 1) (tbl.length - 1) with hlt | hge
            · rw [Nat.mod_eq_of_lt (by omega)]
              refine ih (idx + 1) (swapRemove tbl idx) (visited ++ [e.1])
                (by omega) (by omega) (by simp only [fuelBound]; omega)
                hk2 ?_
              intro hf j hjU x hjx
              rw [hlen2] at hjU
              simp only [inU] at hjU
              have hjlt2 : j < tbl.length - 1 := by omega
              have hjne : j ≠ idx := by omega
              rw [swapRemove_getElem?_ne tbl idx j hjne hjlt2] at hjx
              have key : inU start idx tbl.length j ∧ j ≠ idx := by
                simp only [inU]
                omega
              have h1 : x.1 ∉ visited := H5 (by omega) j key.1 x hjx
              have h2 : x.1 ≠ e.1 := keys_distinct H4 key.2 hjx he
              simp only [List.mem_append, List.mem_singleton, not_or]
              exact ⟨h1, h2⟩
            · have heqlen : idx + 1 = tbl.length - 1 := by omega
              rw [← heqlen, Nat.mod_self]
              refine ih 0 (swapRemove tbl idx) (visited ++ [e.1])
                (by omega) (by omega) (by simp only [fuelBound]; omega)
                hk2 ?_
              intro hf j hjU x hjx
              rw [hlen2] at hjU
              simp only [inU] at hjU
              exact absurd rfl (by omega : ¬ (0 : Nat) = 0)
          · rw [if_neg hB]
            refine ih idx (swapRemove tbl idx) (visited ++ [e.1])
              (by omega) (by omega) (by simp only [fuelBound]; omega) hk2 ?_
            intro hf j hjU x hjx
            rw [hlen2] at hjU
            simp only [inU] at hjU
            by_cases hji : j = idx
            · subst hji
              have hjlt2 : j < tbl.length - 1 := by omega
              rw [swapRemove_getElem?_self tbl j hjlt2] at hjx
              have key : inU start j tbl.length (tbl.length - 1) ∧
                  tbl.length - 1 ≠ j := by
                simp only [inU]
                omega
              have h1 : x.1 ∉ visited := H5 (by omega) _ key.1 x hjx
              have h2 : x.1 ≠ e.1 := keys_distinct H4 key.2 hjx he
              simp only [List.mem_append, List.mem_singleton, not_or]
              exact ⟨h1, h2⟩
            · have hjlt2 : j < tbl.length - 1 := by omega
              rw [swapRemove_getElem?_ne tbl idx j hji hjlt2] at hjx
              have key : inU start idx tbl.length j ∧ j ≠ idx := by
                simp only [inU]
                omega
              have h1 : x.1 ∉ visited := H5 (by omega) j key.1 x hjx
              have h2 : x.1 ≠ e.1 := keys_distinct H4 key.2 hjx he
              simp only [List.mem_append, List.mem_singleton, not_or]
              exact ⟨h1, h2⟩
      obtain ⟨res, tbl3, trace2, heq2, hnd2, hnv2, hln2, hmem2, hperm2,
        hrdy2, hnone2⟩ := happ
      refine ⟨res, tbl3, e :: trace2, ?_, ?_, ?_, ?_, ?_, ?_, ?_, ?_⟩
      · simp [next_ready_loop, he, hp, heq2]
      · rw [List.map_cons, List.nodup_cons]
        exact ⟨fun hin => (hnv2 e.1 hin) (by simp), hnd2⟩
      · intro a ha
        rw [List.map_cons, List.mem_cons] at ha
        rcases ha with rfl | hmem
        · exact hev
        · exact fun h => hnv2 a hmem (List.mem_append_left _ h)
      · simp only [List.length_cons]
        omega
      · intro x hx
        rcases List.mem_cons.mp hx with rfl | hmem
        · exact hemem
        · exact mem_of_mem_swapRemove hidx (hmem2 x hmem)
      · have hstep1 : tbl.Perm (e :: swapRemove tbl idx) :=
          (perm_cons_eraseIdx_of_getElem? tbl idx e he).trans
            ((swapRemove_perm_eraseIdx tbl idx hidx).symm.cons e)
        have hstep2 : (e :: swapRemove tbl idx).Perm
            (e :: (tbl3 ++ trace2.filter (fun x => probe x.2 == Probe.ioErr))) :=
          hperm2.cons e
        have hstep3 :
            (e :: (tbl3 ++ trace2.filter (fun x => probe x.2 == Probe.ioErr))).Perm
              (tbl3 ++ e :: trace2.filter (fun x => probe x.2 == Probe.ioErr)) :=
          List.perm_middle.symm
        have hfilter : (e :: trace2).filter (fun x => probe x.2 == Probe.ioErr) =
            e :: trace2.filter (fun x => probe x.2 == Probe.ioErr) := by
          rw [List.filter_cons_of_pos (by simp [hp])]
        rw [hfilter]
        exact (hstep1.trans hstep2).trans hstep3
      · intro a ha
        obtain ⟨p, x, htr, hx1, hx2, hx3⟩ := hrdy2 a ha
        refine ⟨e :: p, x, by simp [htr], hx1, hx2, ?_⟩
        intro y hy
        rcases List.mem_cons.mp hy with rfl | hyp
        · simp [hp]
        · exact hx3 y hyp
      · intro hnone x hx
        rcases List.mem_cons.mp hx with rfl | hmem
        · simp [hp]
        · exact hnone2 hnone x hmem

/-- C8: `next_ready`, for every start index in `[0, N)` (the range of
the source's pseudo-random draw `usize::random % N`), probes at most `N`
entries, probes no entry twice in one call, returns `Ready` with the
address of the first probed stream whose readability probe reports the
8-byte wire header buffered (`Probe.ready`), evicts by swap-remove
exactly the probed streams whose probe errored (the final table plus the
probed-error entries is a permutation of the original table, so no
already-visited slot is probed twice and nothing else is evicted),
returns `Pending` when no probed stream is ready — in particular
whenever no stream in the table is ready — and returns `Pending` without
probing on the empty table. -/
theorem next_ready_spec (probe : TcpStream → Probe) (start : Nat) (tbl : Tbl)
    (hk : KeysNodup tbl) (hstart : tbl = [] ∨ start < tbl.length) :
    ∃ res tbl2 trace,
      next_ready probe start tbl = some (res, tbl2, trace) ∧
      trace.length ≤ tbl.length ∧
      (trace.map Prod.fst).Nodup ∧
      (∀ x ∈ trace, x ∈ tbl) ∧
      tbl.Perm (tbl2 ++ trace.filter (fun x => probe x.2 == Probe.ioErr)) ∧
      (∀ a, res = some a →
        ∃ p x, trace = p ++ [x] ∧ probe x.2 = Probe.ready ∧ x.1 = a ∧
          ∀ y ∈ p, probe y.2 ≠ Probe.ready) ∧
      (res = none → ∀ x ∈ trace, probe x.2 ≠ Probe.ready) ∧
      ((∀ x ∈ tbl, probe x.2 ≠ Probe.ready) → res = none) ∧
      (tbl = [] → res = none ∧ tbl2 = tbl ∧ trace = []) := by
  rcases hstart with rfl | hlt
  · exact ⟨none, [], [], by simp [next_ready], by simp, by simp, by simp,
      by simp, by simp, by simp, fun _ => rfl, fun _ => ⟨rfl, rfl, rfl⟩⟩
  · have hne : tbl ≠ [] := by
      intro h
      rw [h] at hlt
      simp at hlt
    obtain ⟨res, tbl2, trace, heq, hnd, _, hln, hmem, hperm, hrdy, hnone⟩ :=
      next_ready_loop_spec probe start tbl.length start tbl []
        (Nat.le_refl _) (Or.inr hlt)
        (by simp only [fuelBound]; omega) hk
        (by intro _ j _ x _; exact List.not_mem_nil x.1)
    have hnr : next_ready probe start tbl = some (res, tbl2, trace) := by
      rw [next_ready, if_neg (by simpa [List.isEmpty_iff] using hne)]
      exact heq
    refine ⟨res, tbl2, trace, hnr, hln, hnd, hmem, hperm, hrdy, hnone, ?_, ?_⟩
    · intro hnoready
      cases hres : res with
      | none => rfl
      | some a =>
        obtain ⟨p, x, htr, hx1, _, _⟩ := hrdy a hres
        have hx : x ∈ trace := by
          rw [htr]
          simp
        exact absurd hx1 (hnoready x (hmem x hx))
    · intro h
      exact absurd h hne

/-- The readability oracle for the C8 witness: only the stream with
`sid = 1` (the second entry of `tblW`) has the full header buffered. -/
def probeW : TcpStream → Probe :=
  fun s => if s.sid = 1 then .ready else .pending

theorem next_ready_spec_witness :
    KeysNodup tblW ∧ (tblW = [] ∨ 0 < tblW.length) ∧
    (∃ res tbl2 trace,
      next_ready probeW 0 tblW = some (res, tbl2, trace) ∧
      trace.length ≤ tblW.length ∧
      (trace.map Prod.fst).Nodup ∧
      (∀ x ∈ trace, x ∈ tblW) ∧
      tblW.Perm (tbl2 ++ trace.filter (fun x => probeW x.2 == Probe.ioErr)) ∧
      (∀ a, res = some a →
        ∃ p x, trace = p ++ [x] ∧ probeW x.2 = Probe.ready ∧ x.1 = a ∧
          ∀ y ∈ p, probeW y.2 ≠ Probe.ready) ∧
      (res = none → ∀ x ∈ trace, probeW x.2 ≠ Probe.ready) ∧
      ((∀ x ∈ tblW, probeW x.2 ≠ Probe.ready) → res = none) ∧
      (tblW = [] → res = none ∧ tbl2 = tblW ∧ trace = [])) :=
  ⟨by unfold KeysNodup; decide, by right; decide,
   next_ready_spec probeW 0 tblW (by unfold KeysNodup; decide)
     (by right; decide)⟩

end Afc
